import Mathlib

/-!
Shallow embedding of the decentralized file storage backend
(src/src/decentralized_file_storage_backend/src/lib.rs).

The Rust code keeps its state in a single thread-local `FileStorage` struct
and every operation borrows it exclusively, so each operation is embedded as
a pure function from a `FileStorage` value (plus its arguments) to a result
together with the successor state.  The two `HashMap`s are embedded as
association lists with `insert`/`remove`/`get` semantics matching
`std::collections::HashMap` (replace on insert, first-match lookup; keys are
unique in every state built by the operations).  `get_current_timestamp` is a
read of the host clock, so the operations that call it take the timestamp as
an explicit parameter.  `usize` quantities are modelled as `Nat`; the one
subtraction in the code (`storage_usage -= file.content.len()` in
`delete_file`) is truncated `Nat` subtraction, and its non-underflow is the
subject of a separate invariant proof.
-/

set_option maxHeartbeats 1000000

/-- The `StorageError` enum from the source. -/
inductive StorageError where
  | FileNotFound
  | FileAlreadyExists
  | InvalidOperation
  | StorageLimit
  | InvalidFileType
  | SystemError
deriving DecidableEq, Repr

/-- The `FileMetadata` struct from the source. -/
structure FileMetadata where
  name : String
  size : Nat
  upload_timestamp : Nat
  last_modified : Nat
  file_type : String
  is_encrypted : Bool
  version_history : List String
  tags : List String
deriving DecidableEq, Repr

/-- The `File` struct from the source. -/
structure File where
  name : String
  content : List Nat
  metadata : FileMetadata
deriving DecidableEq, Repr

/-- The `FileStorage` struct from the source; both `HashMap`s are embedded as
association lists. -/
structure FileStorage where
  files : List (String × File)
  file_chunks : List (String × List (List Nat))
  storage_usage : Nat
  max_storage_size : Nat
deriving DecidableEq, Repr

/-- `MAX_FILE_SIZE` constant: 10 MiB. -/
def MAX_FILE_SIZE : Nat := 10 * 1024 * 1024

/-- `CHUNK_SIZE` constant: 1 MiB. -/
def CHUNK_SIZE : Nat := 1024 * 1024

/-- `MAX_STORAGE_SIZE` constant: 1 GiB. -/
def MAX_STORAGE_SIZE : Nat := 1024 * 1024 * 1024

/-- `HashMap::get`: first entry with the given key. -/
def alookup {α : Type} : List (String × α) → String → Option α
  | [], _ => none
  | (k', v) :: rest, k => if k' = k then some v else alookup rest k

/-- `HashMap::insert`: replace the entry with the given key, or append a new
entry when the key is absent. -/
def ainsert {α : Type} : List (String × α) → String → α → List (String × α)
  | [], k, v => [(k, v)]
  | (k', v') :: rest, k, v =>
      if k' = k then (k, v) :: rest else (k', v') :: ainsert rest k v

/-- `HashMap::remove`: drop the entry with the given key (the first match;
keys are unique in every state the operations construct). -/
def aremove {α : Type} : List (String × α) → String → List (String × α)
  | [], _ => []
  | (k', v') :: rest, k => if k' = k then rest else (k', v') :: aremove rest k

/-- Fuel-driven worker for `content.chunks(CHUNK_SIZE)`: structural recursion
on the fuel so that the kernel can evaluate it on concrete inputs.  The fuel
is always at least the length of the list when called through `toChunks`. -/
def chunkSplit : Nat → List Nat → List (List Nat)
  | _, [] => []
  | 0, _ :: _ => []
  | fuel + 1, x :: xs =>
      (x :: xs).take CHUNK_SIZE :: chunkSplit fuel ((x :: xs).drop CHUNK_SIZE)

/-- `content.chunks(CHUNK_SIZE).map(|chunk| chunk.to_vec()).collect()`:
split a byte sequence into 1 MiB blocks, the last one possibly shorter. -/
def toChunks (content : List Nat) : List (List Nat) :=
  chunkSplit content.length content

/-- The initial `FileStorage` value installed by the `thread_local!` block. -/
def initState : FileStorage :=
  { files := []
    file_chunks := []
    storage_usage := 0
    max_storage_size := MAX_STORAGE_SIZE }

/-- `upload_file`, with `get_current_timestamp()` passed in as `ts`. -/
def upload_file (s : FileStorage) (name : String) (content : List Nat)
    (file_type : String) (tags : List String) (ts : Nat) :
    Except StorageError Bool × FileStorage :=
  if content.length > MAX_FILE_SIZE then
    (.error .StorageLimit, s)
  else if s.storage_usage + content.length > s.max_storage_size then
    (.error .StorageLimit, s)
  else
    let metadata : FileMetadata :=
      { name := name
        size := content.length
        upload_timestamp := ts
        last_modified := ts
        file_type := file_type
        is_encrypted := false
        version_history := []
        tags := tags }
    let chunks := toChunks content
    let file : File := { name := name, content := content, metadata := metadata }
    (.ok true,
      { s with
          files := ainsert s.files name file
          file_chunks := ainsert s.file_chunks name chunks
          storage_usage := s.storage_usage + content.length })

/-- `download_file`. -/
def download_file (s : FileStorage) (name : String) : Except StorageError File :=
  match alookup s.files name with
  | some file => .ok file
  | none => .error .FileNotFound

/-- `delete_file`.  The source decrements `storage_usage` with `usize`
subtraction; here it is truncated `Nat` subtraction. -/
def delete_file (s : FileStorage) (name : String) :
    Except StorageError Bool × FileStorage :=
  match alookup s.files name with
  | some file =>
      (.ok true,
        { s with
            files := aremove s.files name
            file_chunks := aremove s.file_chunks name
            storage_usage := s.storage_usage - file.content.length })
  | none => (.error .FileNotFound, s)

/-- `update_file_metadata`, with `get_current_timestamp()` passed in as `ts`. -/
def update_file_metadata (s : FileStorage) (name : String)
    (new_tags : Option (List String)) (ts : Nat) :
    Except StorageError Bool × FileStorage :=
  match alookup s.files name with
  | some file =>
      let file' : File :=
        { file with
            metadata :=
              { file.metadata with
                  tags := new_tags.getD file.metadata.tags
                  last_modified := ts } }
      (.ok true, { s with files := ainsert s.files name file' })
  | none => (.error .FileNotFound, s)

/-- `create_file_version`, with `get_current_timestamp()` passed in as `ts`.
The version id is the Rust format string `"{}_{}"` applied to the name and
the timestamp. -/
def create_file_version (s : FileStorage) (name : String) (content : List Nat)
    (ts : Nat) : Except StorageError Bool × FileStorage :=
  match alookup s.files name with
  | some file =>
      let version_id := name ++ "_" ++ toString ts
      let file' : File :=
        { file with
            metadata :=
              { file.metadata with
                  version_history :=
                    file.metadata.version_history ++ [version_id] } }
      let chunks := toChunks content
      (.ok true,
        { s with
            files := ainsert s.files name file'
            file_chunks := ainsert s.file_chunks version_id chunks })
  | none => (.error .FileNotFound, s)

/-- `search_by_tags`: the files whose tag list contains every query tag.  The
iteration order over `HashMap::values` is arbitrary in Rust; here it is the
association-list order, and the claims about this function are order
independent. -/
def search_by_tags (s : FileStorage) (tags : List String) : List File :=
  (s.files.map Prod.snd).filter fun file =>
    tags.all fun tag => file.metadata.tags.contains tag

/-- `get_storage_analytics`. -/
def get_storage_analytics (s : FileStorage) : Nat × Nat × Nat :=
  (s.storage_usage, s.max_storage_size, s.files.length)

/-- Sum of the content lengths of all files in the primary map. -/
def sumSizes (m : List (String × File)) : Nat :=
  (m.map fun p => p.2.content.length).sum

/-- One mutating operation of the engine, with arbitrary arguments and an
arbitrary clock reading.  The query operations (`download_file`,
`search_by_tags`, `get_storage_analytics`, `get_file_type_distribution`)
take `&self` only and return no successor state, so they are not steps. -/
inductive Step : FileStorage → FileStorage → Prop where
  | upload (s : FileStorage) (name : String) (content : List Nat)
      (file_type : String) (tags : List String) (ts : Nat) :
      Step s (upload_file s name content file_type tags ts).2
  | delete (s : FileStorage) (name : String) :
      Step s (delete_file s name).2
  | updateMeta (s : FileStorage) (name : String)
      (new_tags : Option (List String)) (ts : Nat) :
      Step s (update_file_metadata s name new_tags ts).2
  | createVersion (s : FileStorage) (name : String) (content : List Nat)
      (ts : Nat) :
      Step s (create_file_version s name content ts).2

/-- States reachable from the empty store by any sequence of operations. -/
inductive Reachable : FileStorage → Prop where
  | init : Reachable initState
  | step {s s' : FileStorage} : Reachable s → Step s s' → Reachable s'

/-- One mutating operation, restricted so that `upload_file` is only applied
to a name that is not currently in the primary map (no silent overwrite). -/
inductive StepFresh : FileStorage → FileStorage → Prop where
  | upload (s : FileStorage) (name : String) (content : List Nat)
      (file_type : String) (tags : List String) (ts : Nat)
      (h : alookup s.files name = none) :
      StepFresh s (upload_file s name content file_type tags ts).2
  | delete (s : FileStorage) (name : String) :
      StepFresh s (delete_file s name).2
  | updateMeta (s : FileStorage) (name : String)
      (new_tags : Option (List String)) (ts : Nat) :
      StepFresh s (update_file_metadata s name new_tags ts).2
  | createVersion (s : FileStorage) (name : String) (content : List Nat)
      (ts : Nat) :
      StepFresh s (create_file_version s name content ts).2

/-- States reachable from the empty store without ever overwriting an
existing name via `upload_file`. -/
inductive ReachableFresh : FileStorage → Prop where
  | init : ReachableFresh initState
  | step {s s' : FileStorage} : ReachableFresh s → StepFresh s s' → ReachableFresh s'

/-- State after one upload of the three-byte file a.txt at timestamp 7. -/
def oneFileState : FileStorage :=
  (upload_file initState "a.txt" [1, 2, 3] "text" ["draft"] 7).2

/-- The file stored in `oneFileState`. -/
def oneFile : File :=
  { name := "a.txt"
    content := [1, 2, 3]
    metadata :=
      { name := "a.txt"
        size := 3
        upload_timestamp := 7
        last_modified := 7
        file_type := "text"
        is_encrypted := false
        version_history := []
        tags := ["draft"] } }

/-- State after uploading the one-byte file a twice in a row. -/
def twiceState : FileStorage :=
  (upload_file (upload_file initState "a" [1] "t" [] 0).2 "a" [1] "t" [] 0).2

/-- An artificial state whose usage counter already sits at the capacity
ceiling, for exercising the quota rejection. -/
def fullState : FileStorage :=
  { files := []
    file_chunks := []
    storage_usage := MAX_STORAGE_SIZE
    max_storage_size := MAX_STORAGE_SIZE }

/-! ### Association-list lemmas -/

/-- Keys of an association list. -/
def keys {α : Type} (m : List (String × α)) : List String := m.map Prod.fst

theorem alookup_ainsert_self {α : Type} (m : List (String × α)) (k : String) (v : α) :
    alookup (ainsert m k v) k = some v := by
  induction m with
  | nil => simp [ainsert, alookup]
  | cons p rest ih =>
      obtain ⟨k', v'⟩ := p
      by_cases h : k' = k
      · simp [ainsert, h, alookup]
      · simp [ainsert, h, alookup, ih]

theorem alookup_ainsert_ne {α : Type} (m : List (String × α)) (k k' : String) (v : α)
    (h : k' ≠ k) : alookup (ainsert m k v) k' = alookup m k' := by
  induction m with
  | nil => simp [ainsert, alookup, Ne.symm h]
  | cons p rest ih =>
      obtain ⟨k₀, v₀⟩ := p
      by_cases hk : k₀ = k
      · subst hk
        simp [ainsert, alookup, Ne.symm h]
      · by_cases hk' : k₀ = k'
        · simp [ainsert, hk, alookup, hk', h]
        · simp [ainsert, hk, alookup, hk', ih]

theorem alookup_aremove_ne {α : Type} (m : List (String × α)) (k k' : String)
    (h : k' ≠ k) : alookup (aremove m k) k' = alookup m k' := by
  induction m with
  | nil => simp [aremove]
  | cons p rest ih =>
      obtain ⟨k₀, v₀⟩ := p
      by_cases hk : k₀ = k
      · subst hk
        simp [aremove, alookup, Ne.symm h]
      · by_cases hk' : k₀ = k'
        · simp [aremove, hk, alookup, hk', h]
        · simp [aremove, hk, alookup, hk', ih]

theorem alookup_eq_none_iff {α : Type} (m : List (String × α)) (k : String) :
    alookup m k = none ↔ k ∉ keys m := by
  induction m with
  | nil => simp [alookup, keys]
  | cons p rest ih =>
      obtain ⟨k₀, v₀⟩ := p
      by_cases hk : k₀ = k
      · subst hk
        simp [alookup, keys]
      · simp [alookup, hk, keys, ih, Ne.symm hk]

theorem mem_ainsert {α : Type} {p : String × α} (m : List (String × α)) (k : String)
    (v : α) (h : p ∈ ainsert m k v) : p = (k, v) ∨ p ∈ m := by
  induction m with
  | nil => simp [ainsert] at h; simp [h]
  | cons q rest ih =>
      obtain ⟨k₀, v₀⟩ := q
      by_cases hk : k₀ = k
      · simp only [ainsert, hk, if_pos] at h
        rcases List.mem_cons.mp h with h | h
        · exact Or.inl h
        · exact Or.inr (List.mem_cons_of_mem _ h)
      · simp only [ainsert, hk, if_neg, not_false_iff] at h
        rcases List.mem_cons.mp h with h | h
        · exact Or.inr (h ▸ List.mem_cons_self _ _)
        · rcases ih h with h' | h'
          · exact Or.inl h'
          · exact Or.inr (List.mem_cons_of_mem _ h')

theorem mem_aremove {α : Type} {p : String × α} (m : List (String × α)) (k : String)
    (h : p ∈ aremove m k) : p ∈ m := by
  induction m with
  | nil => simp [aremove] at h
  | cons q rest ih =>
      obtain ⟨k₀, v₀⟩ := q
      by_cases hk : k₀ = k
      · simp only [aremove, hk, if_pos] at h
        exact List.mem_cons_of_mem _ h
      · simp only [aremove, hk, if_neg, not_false_iff] at h
        rcases List.mem_cons.mp h with h | h
        · exact h ▸ List.mem_cons_self _ _
        · exact List.mem_cons_of_mem _ (ih h)

theorem mem_keys_ainsert {α : Type} (m : List (String × α)) (k : String) (v : α)
    (j : String) (h : j ∈ keys (ainsert m k v)) : j = k ∨ j ∈ keys m := by
  induction m with
  | nil => simpa [ainsert, keys] using h
  | cons q rest ih =>
      obtain ⟨k₀, v₀⟩ := q
      by_cases hk : k₀ = k
      · subst hk
        simpa [ainsert, keys] using h
      · simp only [ainsert, hk, if_neg, not_false_iff, keys, List.map_cons,
          List.mem_cons] at h
        rcases h with h | h
        · exact Or.inr (by simp [keys, h])
        · rcases ih h with h' | h'
          · exact Or.inl h'
          · exact Or.inr (by simp [keys] at h' ⊢; exact Or.inr h')

theorem keys_nodup_ainsert {α : Type} (m : List (String × α)) (k : String) (v : α)
    (h : (keys m).Nodup) : (keys (ainsert m k v)).Nodup := by
  induction m with
  | nil => simp [ainsert, keys]
  | cons q rest ih =>
      obtain ⟨k₀, v₀⟩ := q
      simp only [keys, List.map_cons, List.nodup_cons] at h
      by_cases hk : k₀ = k
      · subst hk
        simp only [ainsert, if_pos, keys, List.map_cons, List.nodup_cons]
        exact ⟨h.1, h.2⟩
      · simp only [ainsert, hk, if_neg, not_false_iff, keys, List.map_cons,
          List.nodup_cons]
        refine ⟨fun hmem => ?_, ih h.2⟩
        rcases mem_keys_ainsert rest k v k₀ hmem with h' | h'
        · exact hk h'
        · exact h.1 h'

theorem keys_aremove_sublist {α : Type} (m : List (String × α)) (k : String) :
    (keys (aremove m k)).Sublist (keys m) := by
  induction m with
  | nil => simp [aremove, keys]
  | cons q rest ih =>
      obtain ⟨k₀, v₀⟩ := q
      by_cases hk : k₀ = k
      · simp only [aremove, hk, if_pos, keys, List.map_cons]
        exact List.sublist_cons_self _ _
      · simp only [aremove, hk, if_neg, not_false_iff, keys, List.map_cons]
        exact ih.cons₂ _

theorem keys_nodup_aremove {α : Type} (m : List (String × α)) (k : String)
    (h : (keys m).Nodup) : (keys (aremove m k)).Nodup :=
  (keys_aremove_sublist m k).nodup h

theorem alookup_aremove_self {α : Type} (m : List (String × α)) (k : String)
    (h : (keys m).Nodup) : alookup (aremove m k) k = none := by
  induction m with
  | nil => simp [aremove, alookup]
  | cons q rest ih =>
      obtain ⟨k₀, v₀⟩ := q
      simp only [keys, List.map_cons, List.nodup_cons] at h
      by_cases hk : k₀ = k
      · subst hk
        simp only [aremove, if_pos]
        exact (alookup_eq_none_iff rest k₀).mpr h.1
      · simp [aremove, hk, alookup, ih h.2]

theorem ainsert_of_alookup_none {α : Type} (m : List (String × α)) (k : String)
    (v : α) (h : alookup m k = none) : ainsert m k v = m ++ [(k, v)] := by
  induction m with
  | nil => simp [ainsert]
  | cons q rest ih =>
      obtain ⟨k₀, v₀⟩ := q
      by_cases hk : k₀ = k
      · simp [alookup, hk] at h
      · simp only [alookup, hk, if_neg, not_false_iff] at h
        simp [ainsert, hk, ih h]

/-! ### Size-sum lemmas -/

theorem sumSizes_nil : sumSizes [] = 0 := rfl

theorem sumSizes_cons (p : String × File) (m : List (String × File)) :
    sumSizes (p :: m) = p.2.content.length + sumSizes m := by
  simp [sumSizes]

theorem sumSizes_append (m₁ m₂ : List (String × File)) :
    sumSizes (m₁ ++ m₂) = sumSizes m₁ + sumSizes m₂ := by
  simp [sumSizes]

theorem sumSizes_ainsert_le (m : List (String × File)) (k : String) (v : File) :
    sumSizes (ainsert m k v) ≤ sumSizes m + v.content.length := by
  induction m with
  | nil => simp [ainsert, sumSizes]
  | cons q rest ih =>
      obtain ⟨k₀, v₀⟩ := q
      by_cases hk : k₀ = k
      · simp only [ainsert, hk, if_pos, sumSizes_cons]
        omega
      · simp only [ainsert, hk, if_neg, not_false_iff, sumSizes_cons]
        omega

theorem sumSizes_aremove (m : List (String × File)) (k : String) (f : File)
    (h : alookup m k = some f) :
    sumSizes (aremove m k) + f.content.length = sumSizes m := by
  induction m with
  | nil => simp [alookup] at h
  | cons q rest ih =>
      obtain ⟨k₀, v₀⟩ := q
      by_cases hk : k₀ = k
      · simp only [alookup, hk, if_pos, Option.some.injEq] at h
        subst h
        simp only [aremove, hk, if_pos, sumSizes_cons]
        omega
      · simp only [alookup, hk, if_neg, not_false_iff] at h
        simp only [aremove, hk, if_neg, not_false_iff, sumSizes_cons]
        have := ih h
        omega

theorem alookup_size_le_sumSizes (m : List (String × File)) (k : String) (f : File)
    (h : alookup m k = some f) : f.content.length ≤ sumSizes m := by
  induction m with
  | nil => simp [alookup] at h
  | cons q rest ih =>
      obtain ⟨k₀, v₀⟩ := q
      by_cases hk : k₀ = k
      · simp only [alookup, hk, if_pos, Option.some.injEq] at h
        subst h
        simp only [sumSizes_cons]
        omega
      · simp only [alookup, hk, if_neg, not_false_iff] at h
        have := ih h
        simp only [sumSizes_cons]
        omega

theorem sumSizes_ainsert_same (m : List (String × File)) (k : String) (f v : File)
    (h : alookup m k = some f) (hlen : v.content.length = f.content.length) :
    sumSizes (ainsert m k v) = sumSizes m := by
  induction m with
  | nil => simp [alookup] at h
  | cons q rest ih =>
      obtain ⟨k₀, v₀⟩ := q
      by_cases hk : k₀ = k
      · simp only [alookup, hk, if_pos, Option.some.injEq] at h
        subst h
        simp only [ainsert, hk, if_pos, sumSizes_cons]
        omega
      · simp only [alookup, hk, if_neg, not_false_iff] at h
        simp only [ainsert, hk, if_neg, not_false_iff, sumSizes_cons, ih h]

theorem sumSizes_ainsert_none (m : List (String × File)) (k : String) (v : File)
    (h : alookup m k = none) :
    sumSizes (ainsert m k v) = sumSizes m + v.content.length := by
  rw [ainsert_of_alookup_none m k v h, sumSizes_append]
  simp [sumSizes]

/-! ### Chunk-splitting lemmas -/

theorem chunkSplit_fuel : ∀ (f₁ f₂ : Nat) (c : List Nat),
    c.length ≤ f₁ → c.length ≤ f₂ → chunkSplit f₁ c = chunkSplit f₂ c
  | f₁, f₂, [], _, _ => by cases f₁ <;> cases f₂ <;> simp [chunkSplit]
  | 0, _, x :: xs, h₁, _ => by simp at h₁
  | _ + 1, 0, x :: xs, _, h₂ => by simp at h₂
  | f₁ + 1, f₂ + 1, x :: xs, h₁, h₂ => by
      simp only [chunkSplit]
      congr 1
      have hc : CHUNK_SIZE = 1048576 := by decide
      apply chunkSplit_fuel
      · simp only [List.length_drop, List.length_cons]
        simp only [List.length_cons] at h₁
        omega
      · simp only [List.length_drop, List.length_cons]
        simp only [List.length_cons] at h₂
        omega

theorem toChunks_nil : toChunks [] = [] := rfl

theorem toChunks_cons (x : Nat) (xs : List Nat) :
    toChunks (x :: xs) =
      (x :: xs).take CHUNK_SIZE :: toChunks ((x :: xs).drop CHUNK_SIZE) := by
  show chunkSplit (x :: xs).length (x :: xs) = _
  simp only [List.length_cons, chunkSplit]
  congr 1
  apply chunkSplit_fuel
  · have hc : CHUNK_SIZE = 1048576 := by decide
    simp only [List.length_drop, List.length_cons]
    omega
  · exact Nat.le_refl _

theorem toChunks_flatten : ∀ (c : List Nat), (toChunks c).flatten = c
  | [] => by simp [toChunks_nil]
  | x :: xs => by
      rw [toChunks_cons, List.flatten_cons,
        toChunks_flatten ((x :: xs).drop CHUNK_SIZE)]
      exact List.take_append_drop CHUNK_SIZE (x :: xs)
termination_by c => c.length
decreasing_by
  have hc : CHUNK_SIZE = 1048576 := by decide
  simp only [List.length_drop, List.length_cons]
  omega

theorem toChunks_block_length : ∀ (c : List Nat), ∀ b ∈ toChunks c,
    0 < b.length ∧ b.length ≤ CHUNK_SIZE
  | [] => by simp [toChunks_nil]
  | x :: xs => by
      rw [toChunks_cons]
      intro b hb
      have hc : CHUNK_SIZE = 1048576 := by decide
      rcases List.mem_cons.mp hb with h | h
      · subst h
        simp only [List.length_take, List.length_cons]
        omega
      · exact toChunks_block_length _ b h
termination_by c => c.length
decreasing_by
  have hc : CHUNK_SIZE = 1048576 := by decide
  simp only [List.length_drop, List.length_cons]
  omega

theorem toChunks_dropLast_length : ∀ (c : List Nat), ∀ b ∈ (toChunks c).dropLast,
    b.length = CHUNK_SIZE
  | [] => by simp [toChunks_nil]
  | x :: xs => by
      rw [toChunks_cons]
      have hc : CHUNK_SIZE = 1048576 := by decide
      by_cases hd : (x :: xs).drop CHUNK_SIZE = []
      · rw [hd, toChunks_nil]
        simp
      · have hne : toChunks ((x :: xs).drop CHUNK_SIZE) ≠ [] := by
          cases he : (x :: xs).drop CHUNK_SIZE with
          | nil => exact absurd he hd
          | cons y ys =>
              rw [toChunks_cons]
              simp
        rw [List.dropLast_cons_of_ne_nil hne]
        intro b hb
        rcases List.mem_cons.mp hb with h | h
        · subst h
          have hlen : CHUNK_SIZE < (x :: xs).length := by
            by_contra hle
            push_neg at hle
            exact hd (List.drop_eq_nil_iff.mpr hle)
          simp only [List.length_take]
          omega
        · exact toChunks_dropLast_length _ b h
termination_by c => c.length
decreasing_by
  have hc : CHUNK_SIZE = 1048576 := by decide
  simp only [List.length_drop, List.length_cons]
  omega

/-! ### State invariants -/

/-- Invariants of the storage state maintained by every operation: the usage
counter dominates the sum of live file sizes, the map keys are unique, and
every stored chunk shard is the chunking of some byte sequence. -/
structure StateInv (s : FileStorage) : Prop where
  usage_ge : sumSizes s.files ≤ s.storage_usage
  files_nodup : (keys s.files).Nodup
  chunks_nodup : (keys s.file_chunks).Nodup
  chunks_wf : ∀ p ∈ s.file_chunks, ∃ c, p.2 = toChunks c

theorem inv_init : StateInv initState := by
  refine ⟨?_, ?_, ?_, ?_⟩ <;> simp [initState, sumSizes, keys]

theorem inv_upload (s : FileStorage) (h : StateInv s) (name : String)
    (content : List Nat) (file_type : String) (tags : List String) (ts : Nat) :
    StateInv (upload_file s name content file_type tags ts).2 := by
  rw [upload_file]
  split
  · exact h
  · split
    · exact h
    · refine ⟨?_, ?_, ?_, ?_⟩
      · calc sumSizes (ainsert s.files name _)
            ≤ sumSizes s.files + content.length := sumSizes_ainsert_le _ _ _
          _ ≤ s.storage_usage + content.length := by
              have := h.usage_ge
              omega
      · exact keys_nodup_ainsert _ _ _ h.files_nodup
      · exact keys_nodup_ainsert _ _ _ h.chunks_nodup
      · intro p hp
        rcases mem_ainsert _ _ _ hp with hp' | hp'
        · exact ⟨content, by rw [hp']⟩
        · exact h.chunks_wf p hp'

theorem inv_delete (s : FileStorage) (h : StateInv s) (name : String) :
    StateInv (delete_file s name).2 := by
  rw [delete_file]
  cases hl : alookup s.files name with
  | none => exact h
  | some f =>
      refine ⟨?_, ?_, ?_, ?_⟩
      · have h₁ := sumSizes_aremove s.files name f hl
        have h₂ := h.usage_ge
        simp only
        omega
      · exact keys_nodup_aremove _ _ h.files_nodup
      · exact keys_nodup_aremove _ _ h.chunks_nodup
      · intro p hp
        exact h.chunks_wf p (mem_aremove _ _ hp)

theorem inv_update (s : FileStorage) (h : StateInv s) (name : String)
    (new_tags : Option (List String)) (ts : Nat) :
    StateInv (update_file_metadata s name new_tags ts).2 := by
  rw [update_file_metadata]
  cases hl : alookup s.files name with
  | none => exact h
  | some f =>
      refine ⟨?_, ?_, ?_, ?_⟩
      · simp only
        refine le_trans (le_of_eq (sumSizes_ainsert_same s.files name f _ hl ?_))
          h.usage_ge
        rfl
      · exact keys_nodup_ainsert _ _ _ h.files_nodup
      · exact h.chunks_nodup
      · exact h.chunks_wf

theorem inv_create_version (s : FileStorage) (h : StateInv s) (name : String)
    (content : List Nat) (ts : Nat) :
    StateInv (create_file_version s name content ts).2 := by
  rw [create_file_version]
  cases hl : alookup s.files name with
  | none => exact h
  | some f =>
      refine ⟨?_, ?_, ?_, ?_⟩
      · simp only
        refine le_trans (le_of_eq (sumSizes_ainsert_same s.files name f _ hl ?_))
          h.usage_ge
        rfl
      · exact keys_nodup_ainsert _ _ _ h.files_nodup
      · exact keys_nodup_ainsert _ _ _ h.chunks_nodup
      · intro p hp
        rcases mem_ainsert _ _ _ hp with hp' | hp'
        · exact ⟨content, by rw [hp']⟩
        · exact h.chunks_wf p hp'

theorem inv_step {s s' : FileStorage} (h : StateInv s) (hs : Step s s') : StateInv s' := by
  cases hs with
  | upload name content file_type tags ts =>
      exact inv_upload s h name content file_type tags ts
  | delete name => exact inv_delete s h name
  | updateMeta name new_tags ts => exact inv_update s h name new_tags ts
  | createVersion name content ts => exact inv_create_version s h name content ts

theorem reachable_inv {s : FileStorage} (h : Reachable s) : StateInv s := by
  induction h with
  | init => exact inv_init
  | step _ hs ih => exact inv_step ih hs

/-! ### Further helpers -/

theorem alookup_mem {α : Type} (m : List (String × α)) (k : String) (v : α)
    (h : alookup m k = some v) : (k, v) ∈ m := by
  induction m with
  | nil => simp [alookup] at h
  | cons q rest ih =>
      obtain ⟨k₀, v₀⟩ := q
      by_cases hk : k₀ = k
      · simp only [alookup, hk, if_pos, Option.some.injEq] at h
        subst h
        subst hk
        exact List.mem_cons_self _ _
      · simp only [alookup, hk, if_neg, not_false_iff] at h
        exact List.mem_cons_of_mem _ (ih h)

theorem download_file_of_alookup {s : FileStorage} {name : String} {f : File}
    (h : alookup s.files name = some f) : download_file s name = .ok f := by
  rw [download_file, h]

theorem download_file_of_none {s : FileStorage} {name : String}
    (h : alookup s.files name = none) :
    download_file s name = .error .FileNotFound := by
  rw [download_file, h]

theorem reachable_oneFileState : Reachable oneFileState :=
  Reachable.step Reachable.init
    (Step.upload initState "a.txt" [1, 2, 3] "text" ["draft"] 7)

theorem oneFileState_files : alookup oneFileState.files "a.txt" = some oneFile := by
  decide

/-! ### Claims -/

/-- Claim C2 (amended): the equality between storage_usage and the sum of the
stored content lengths holds in every state reachable without ever
re-uploading an existing name; the overwriting upload is the one operation
that breaks it (it adds the new size without subtracting the old one, see
the counterexample). -/
theorem usage_eq_sumSizes_of_fresh_reachable (s : FileStorage)
    (h : ReachableFresh s) : s.storage_usage = sumSizes s.files := by
  induction h with
  | init => simp [initState, sumSizes]
  | @step t t' hr hs ih =>
      cases hs with
      | upload name content file_type tags ts hfresh =>
          rw [upload_file]
          split
          · exact ih
          · split
            · exact ih
            · simp only
              rw [sumSizes_ainsert_none t.files name _ hfresh]
              simp only
              omega
      | delete name =>
          rw [delete_file]
          cases hl : alookup t.files name with
          | none => exact ih
          | some f =>
              have h₁ := sumSizes_aremove t.files name f hl
              have h₂ := alookup_size_le_sumSizes t.files name f hl
              simp only
              omega
      | updateMeta name new_tags ts =>
          rw [update_file_metadata]
          cases hl : alookup t.files name with
          | none => exact ih
          | some f =>
              simp only
              refine ih.trans (sumSizes_ainsert_same t.files name f _ hl ?_).symm
              rfl
      | createVersion name content ts =>
          rw [create_file_version]
          cases hl : alookup t.files name with
          | none => exact ih
          | some f =>
              simp only
              refine ih.trans (sumSizes_ainsert_same t.files name f _ hl ?_).symm
              rfl

/-- Claim C2 (counterexample): the state reached by uploading the one-byte
file a twice is reachable, yet its storage_usage is 2 while the content
lengths of the files in the map sum to 1 — the overwriting upload does not
preserve the equality. -/
theorem usage_eq_sumSizes_counterexample :
    Reachable twiceState ∧ twiceState.storage_usage ≠ sumSizes twiceState.files :=
  ⟨Reachable.step
      (Reachable.step Reachable.init (Step.upload initState "a" [1] "t" [] 0))
      (Step.upload (upload_file initState "a" [1] "t" [] 0).2 "a" [1] "t" [] 0),
    by decide⟩

/-- Claim C2 (witness): after one fresh upload the amended invariant holds
concretely (usage 3 equals the single stored file's size). -/
theorem usage_eq_sumSizes_of_fresh_reachable_witness :
    oneFileState.storage_usage = sumSizes oneFileState.files :=
  usage_eq_sumSizes_of_fresh_reachable oneFileState
    (ReachableFresh.step ReachableFresh.init
      (StepFresh.upload initState "a.txt" [1, 2, 3] "text" ["draft"] 7 (by decide)))

/-- Claim C1: an upload whose content is at most 10 MiB and fits within the
remaining capacity succeeds, and a subsequent download of the same name
returns a file whose content is byte-identical to what was uploaded and
whose metadata size equals the content length. -/
theorem upload_download_roundtrip (s : FileStorage) (name : String)
    (content : List Nat) (file_type : String) (tags : List String) (ts : Nat)
    (h₁ : content.length ≤ MAX_FILE_SIZE)
    (h₂ : s.storage_usage + content.length ≤ s.max_storage_size) :
    (upload_file s name content file_type tags ts).1 = .ok true ∧
    ∃ f : File,
      download_file (upload_file s name content file_type tags ts).2 name = .ok f ∧
      f.content = content ∧ f.metadata.size = content.length := by
  rw [upload_file, if_neg (by omega), if_neg (by omega)]
  exact ⟨rfl, _, download_file_of_alookup (alookup_ainsert_self _ _ _), rfl, rfl⟩

/-- Claim C1 (witness): the round trip at a concrete three-byte upload. -/
theorem upload_download_roundtrip_witness :
    (upload_file initState "a.txt" [1, 2, 3] "text" ["draft"] 5).1 = .ok true ∧
    ∃ f : File,
      download_file (upload_file initState "a.txt" [1, 2, 3] "text" ["draft"] 5).2
        "a.txt" = .ok f ∧
      f.content = [1, 2, 3] ∧ f.metadata.size = 3 :=
  upload_download_roundtrip initState "a.txt" [1, 2, 3] "text" ["draft"] 5
    (by decide) (by decide)

/-- Claim C3: from the empty store the scenario upload of a.txt with three
bytes succeeds and analytics reports (3, 1073741824, 1); re-uploading the
same name with four bytes also succeeds (no FileAlreadyExists) and leaves
storage_usage at 7, the new size having been added without subtracting the
old one. -/
theorem upload_overwrite_scenario :
    (upload_file initState "a.txt" [1, 2, 3] "text" ["draft"] 0).1 = .ok true ∧
    get_storage_analytics
        (upload_file initState "a.txt" [1, 2, 3] "text" ["draft"] 0).2 =
      (3, 1073741824, 1) ∧
    (upload_file (upload_file initState "a.txt" [1, 2, 3] "text" ["draft"] 0).2
        "a.txt" [1, 2, 3, 4] "text" [] 1).1 = .ok true ∧
    (upload_file (upload_file initState "a.txt" [1, 2, 3] "text" ["draft"] 0).2
        "a.txt" [1, 2, 3, 4] "text" [] 1).2.storage_usage = 7 := by
  refine ⟨rfl, by decide, rfl, by decide⟩

/-- Claim C4: upload_file returns StorageLimit exactly when the content
exceeds 10 MiB or the usage counter plus the content length exceeds the
capacity, and whenever it returns that error the state is unchanged. -/
theorem upload_storage_limit_iff (s : FileStorage) (name : String)
    (content : List Nat) (file_type : String) (tags : List String) (ts : Nat) :
    ((upload_file s name content file_type tags ts).1 = .error .StorageLimit ↔
      (MAX_FILE_SIZE < content.length ∨
        s.max_storage_size < s.storage_usage + content.length)) ∧
    ((upload_file s name content file_type tags ts).1 = .error .StorageLimit →
      (upload_file s name content file_type tags ts).2 = s) := by
  rw [upload_file]
  by_cases h₁ : content.length > MAX_FILE_SIZE
  · rw [if_pos h₁]
    exact ⟨⟨fun _ => Or.inl h₁, fun _ => rfl⟩, fun _ => rfl⟩
  · rw [if_neg h₁]
    by_cases h₂ : s.storage_usage + content.length > s.max_storage_size
    · rw [if_pos h₂]
      exact ⟨⟨fun _ => Or.inr h₂, fun _ => rfl⟩, fun _ => rfl⟩
    · rw [if_neg h₂]
      refine ⟨⟨fun hc => absurd hc (by simp), fun hc => ?_⟩,
        fun hc => absurd hc (by simp)⟩
      rcases hc with hc | hc
      · exact absurd hc h₁
      · exact absurd hc h₂

/-- Claim C4 (witness): a one-byte upload into a state already at the
capacity ceiling is rejected with StorageLimit and the state is unchanged. -/
theorem upload_storage_limit_iff_witness :
    ((upload_file fullState "a.txt" [1] "text" [] 0).1 = .error .StorageLimit ↔
      (MAX_FILE_SIZE < 1 ∨
        fullState.max_storage_size < fullState.storage_usage + 1)) ∧
    ((upload_file fullState "a.txt" [1] "text" [] 0).1 = .error .StorageLimit →
      (upload_file fullState "a.txt" [1] "text" [] 0).2 = fullState) :=
  upload_storage_limit_iff fullState "a.txt" [1] "text" [] 0

/-- Claim C5: delete_file fails with FileNotFound and returns the state
unchanged exactly when the name is absent from the files map; when the name
is present it succeeds, removes the file and the chunk shard stored under
the name (leaving every chunk shard under any other key, in particular the
version-id shards, untouched), decrements storage_usage by exactly the
removed file's content length, and a subsequent download of the name fails
with FileNotFound. -/
theorem delete_file_spec (s : FileStorage) (name : String) (h : Reachable s) :
    (alookup s.files name = none →
      delete_file s name = (.error .FileNotFound, s)) ∧
    (∀ f : File, alookup s.files name = some f →
      (delete_file s name).1 = .ok true ∧
      alookup (delete_file s name).2.files name = none ∧
      alookup (delete_file s name).2.file_chunks name = none ∧
      (∀ k : String, k ≠ name →
        alookup (delete_file s name).2.file_chunks k = alookup s.file_chunks k) ∧
      (delete_file s name).2.storage_usage + f.content.length = s.storage_usage ∧
      download_file (delete_file s name).2 name = .error .FileNotFound) := by
  have hinv := reachable_inv h
  constructor
  · intro hnone
    rw [delete_file, hnone]
  · intro f hf
    rw [delete_file, hf]
    refine ⟨rfl, ?_, ?_, ?_, ?_, ?_⟩
    · exact alookup_aremove_self _ _ hinv.files_nodup
    · exact alookup_aremove_self _ _ hinv.chunks_nodup
    · intro k hk
      exact alookup_aremove_ne _ _ _ hk
    · have h₁ := alookup_size_le_sumSizes s.files name f hf
      have h₂ := hinv.usage_ge
      show s.storage_usage - f.content.length + f.content.length = s.storage_usage
      omega
    · exact download_file_of_none (alookup_aremove_self _ _ hinv.files_nodup)

/-- Claim C5 (witness): deleting the concrete stored file a.txt succeeds,
removes file and shard, restores the usage counter, and makes the following
download fail. -/
theorem delete_file_spec_witness :
    (delete_file oneFileState "a.txt").1 = .ok true ∧
    alookup (delete_file oneFileState "a.txt").2.files "a.txt" = none ∧
    alookup (delete_file oneFileState "a.txt").2.file_chunks "a.txt" = none ∧
    alookup (delete_file oneFileState "a.txt").2.file_chunks "b.txt" =
      alookup oneFileState.file_chunks "b.txt" ∧
    (delete_file oneFileState "a.txt").2.storage_usage + oneFile.content.length =
      oneFileState.storage_usage ∧
    download_file (delete_file oneFileState "a.txt").2 "a.txt" =
      .error .FileNotFound := by
  have h := (delete_file_spec oneFileState "a.txt" reachable_oneFileState).2
    oneFile oneFileState_files
  exact ⟨h.1, h.2.1, h.2.2.1, h.2.2.2.1 "b.txt" (by decide), h.2.2.2.2.1,
    h.2.2.2.2.2⟩

/-- Claim C6: for a present name, create_file_version succeeds, records the
chunked supplied content under the version id (name, an underscore and the
timestamp), whose blocks reassemble to the supplied content, leaves
storage_usage unchanged, and a subsequent download returns a file with the
same content and size as before whose version history gained exactly the new
version id; for an absent name it fails with FileNotFound and changes
nothing. -/
theorem create_file_version_spec (s : FileStorage) (name : String)
    (content : List Nat) (ts : Nat) :
    (alookup s.files name = none →
      create_file_version s name content ts = (.error .FileNotFound, s)) ∧
    (∀ f : File, alookup s.files name = some f →
      (create_file_version s name content ts).1 = .ok true ∧
      alookup (create_file_version s name content ts).2.file_chunks
        (name ++ "_" ++ toString ts) = some (toChunks content) ∧
      (toChunks content).flatten = content ∧
      (create_file_version s name content ts).2.storage_usage =
        s.storage_usage ∧
      ∃ f' : File,
        download_file (create_file_version s name content ts).2 name = .ok f' ∧
        f'.content = f.content ∧
        f'.metadata.size = f.metadata.size ∧
        f'.metadata.version_history =
          f.metadata.version_history ++ [name ++ "_" ++ toString ts]) := by
  constructor
  · intro hnone
    rw [create_file_version, hnone]
  · intro f hf
    rw [create_file_version, hf]
    exact ⟨rfl, alookup_ainsert_self _ _ _, toChunks_flatten content, rfl,
      _, download_file_of_alookup (alookup_ainsert_self _ _ _), rfl, rfl, rfl⟩

/-- Claim C6 (witness): versioning the concrete stored file a.txt with a
two-byte snapshot at timestamp 11. -/
theorem create_file_version_spec_witness :
    (create_file_version oneFileState "a.txt" [9, 9] 11).1 = .ok true ∧
    alookup (create_file_version oneFileState "a.txt" [9, 9] 11).2.file_chunks
      ("a.txt" ++ "_" ++ toString 11) = some (toChunks [9, 9]) ∧
    (toChunks [9, 9]).flatten = [9, 9] ∧
    (create_file_version oneFileState "a.txt" [9, 9] 11).2.storage_usage =
      oneFileState.storage_usage ∧
    ∃ f' : File,
      download_file (create_file_version oneFileState "a.txt" [9, 9] 11).2
        "a.txt" = .ok f' ∧
      f'.content = oneFile.content ∧
      f'.metadata.size = oneFile.metadata.size ∧
      f'.metadata.version_history =
        oneFile.metadata.version_history ++ ["a.txt" ++ "_" ++ toString 11] :=
  (create_file_version_spec oneFileState "a.txt" [9, 9] 11).2 oneFile
    oneFileState_files

/-- Claim C7: for a present name, update_file_metadata succeeds; the stored
file's tag list is replaced wholesale exactly when new tags are supplied and
kept otherwise, last_modified is always set to the current time, and the
file's content, size and version history, the chunk map, the usage counter
and every other file are unchanged; for an absent name it fails with
FileNotFound and changes nothing. -/
theorem update_file_metadata_spec (s : FileStorage) (name : String)
    (new_tags : Option (List String)) (ts : Nat) :
    (alookup s.files name = none →
      update_file_metadata s name new_tags ts = (.error .FileNotFound, s)) ∧
    (∀ f : File, alookup s.files name = some f →
      (update_file_metadata s name new_tags ts).1 = .ok true ∧
      (∃ f' : File,
        alookup (update_file_metadata s name new_tags ts).2.files name =
          some f' ∧
        (∀ t : List String, new_tags = some t → f'.metadata.tags = t) ∧
        (new_tags = none → f'.metadata.tags = f.metadata.tags) ∧
        f'.metadata.last_modified = ts ∧
        f'.content = f.content ∧
        f'.metadata.size = f.metadata.size ∧
        f'.metadata.version_history = f.metadata.version_history) ∧
      (∀ k : String, k ≠ name →
        alookup (update_file_metadata s name new_tags ts).2.files k =
          alookup s.files k) ∧
      (update_file_metadata s name new_tags ts).2.file_chunks = s.file_chunks ∧
      (update_file_metadata s name new_tags ts).2.storage_usage =
        s.storage_usage) := by
  constructor
  · intro hnone
    rw [update_file_metadata, hnone]
  · intro f hf
    rw [update_file_metadata, hf]
    refine ⟨rfl, ⟨_, alookup_ainsert_self _ _ _, ?_, ?_, rfl, rfl, rfl, rfl⟩,
      ?_, rfl, rfl⟩
    · intro t ht
      rw [ht]
      rfl
    · intro ht
      rw [ht]
      rfl
    · intro k hk
      exact alookup_ainsert_ne _ _ _ _ hk

/-- Claim C7 (witness): touching the concrete stored file a.txt with no new
tags refreshes last_modified to 42, keeps the tags, and changes nothing
else. -/
theorem update_file_metadata_spec_witness :
    (update_file_metadata oneFileState "a.txt" none 42).1 = .ok true ∧
    (∃ f' : File,
      alookup (update_file_metadata oneFileState "a.txt" none 42).2.files
        "a.txt" = some f' ∧
      (∀ t : List String, (none : Option (List String)) = some t →
        f'.metadata.tags = t) ∧
      ((none : Option (List String)) = none →
        f'.metadata.tags = oneFile.metadata.tags) ∧
      f'.metadata.last_modified = 42 ∧
      f'.content = oneFile.content ∧
      f'.metadata.size = oneFile.metadata.size ∧
      f'.metadata.version_history = oneFile.metadata.version_history) ∧
    alookup (update_file_metadata oneFileState "a.txt" none 42).2.files
      "b.txt" = alookup oneFileState.files "b.txt" ∧
    (update_file_metadata oneFileState "a.txt" none 42).2.file_chunks =
      oneFileState.file_chunks ∧
    (update_file_metadata oneFileState "a.txt" none 42).2.storage_usage =
      oneFileState.storage_usage := by
  have h := (update_file_metadata_spec oneFileState "a.txt" none 42).2
    oneFile oneFileState_files
  exact ⟨h.1, h.2.1, h.2.2.1 "b.txt" (by decide), h.2.2.2.1, h.2.2.2.2⟩

/-- Claim C8: search_by_tags returns exactly the stored files whose tag list
contains every query tag; the query's order and duplicates are irrelevant
(any query with the same members gives the same result), and the empty query
returns all stored files.  The function reads the state and returns copies,
so in the embedding it takes no successor state at all. -/
theorem search_by_tags_spec (s : FileStorage) (tags : List String) :
    (∀ f : File, f ∈ search_by_tags s tags ↔
      (f ∈ s.files.map Prod.snd ∧ ∀ t ∈ tags, t ∈ f.metadata.tags)) ∧
    (∀ tags' : List String, (∀ t : String, t ∈ tags ↔ t ∈ tags') →
      search_by_tags s tags = search_by_tags s tags') ∧
    search_by_tags s [] = s.files.map Prod.snd := by
  refine ⟨?_, ?_, ?_⟩
  · intro f
    simp [search_by_tags, List.mem_filter, List.all_eq_true, List.contains]
  · intro tags' hiff
    apply List.filter_congr
    intro f _
    rw [Bool.eq_iff_iff]
    simp only [List.all_eq_true]
    constructor
    · intro hall t ht
      exact hall t ((hiff t).mpr ht)
    · intro hall t ht
      exact hall t ((hiff t).mp ht)
  · simp [search_by_tags]

/-- Claim C8 (witness): on the concrete one-file state, the file is returned
for the matching query tag, and the empty query returns the whole map. -/
theorem search_by_tags_spec_witness :
    (oneFile ∈ search_by_tags oneFileState ["draft"] ↔
      (oneFile ∈ oneFileState.files.map Prod.snd ∧
        ∀ t ∈ ["draft"], t ∈ oneFile.metadata.tags)) ∧
    search_by_tags oneFileState [] = oneFileState.files.map Prod.snd :=
  ⟨(search_by_tags_spec oneFileState ["draft"]).1 oneFile,
    (search_by_tags_spec oneFileState []).2.2⟩

/-- Claim C9: in every reachable state, every shard in the chunk map has
blocks of exactly 1 MiB except possibly a shorter (nonempty) last block and
is the faithful chunking of the byte sequence its blocks concatenate to;
moreover a successful upload stores the chunking of the uploaded content
under the file key, and create_file_version on a present name stores the
chunking of the supplied content under the version id, each reassembling
exactly to the bytes it was derived from. -/
theorem chunk_shard_invariant (s : FileStorage) (h : Reachable s) :
    (∀ (k : String) (shard : List (List Nat)),
      alookup s.file_chunks k = some shard →
      (∀ b ∈ shard.dropLast, b.length = CHUNK_SIZE) ∧
      (∀ b ∈ shard, 0 < b.length ∧ b.length ≤ CHUNK_SIZE) ∧
      shard = toChunks shard.flatten) ∧
    (∀ (name : String) (content : List Nat) (file_type : String)
        (tags : List String) (ts : Nat),
      (upload_file s name content file_type tags ts).1 = .ok true →
      alookup (upload_file s name content file_type tags ts).2.file_chunks
        name = some (toChunks content) ∧
      (toChunks content).flatten = content) ∧
    (∀ (name : String) (content : List Nat) (ts : Nat) (f : File),
      alookup s.files name = some f →
      alookup (create_file_version s name content ts).2.file_chunks
        (name ++ "_" ++ toString ts) = some (toChunks content) ∧
      (toChunks content).flatten = content) := by
  refine ⟨?_, ?_, ?_⟩
  · intro k shard hk
    obtain ⟨c, hc⟩ := (reachable_inv h).chunks_wf (k, shard) (alookup_mem _ _ _ hk)
    subst hc
    refine ⟨toChunks_dropLast_length c, toChunks_block_length c, ?_⟩
    rw [toChunks_flatten c]
  · intro name content file_type tags ts hok
    rw [upload_file] at hok ⊢
    by_cases h₁ : content.length > MAX_FILE_SIZE
    · rw [if_pos h₁] at hok
      simp at hok
    · rw [if_neg h₁] at hok ⊢
      by_cases h₂ : s.storage_usage + content.length > s.max_storage_size
      · rw [if_pos h₂] at hok
        simp at hok
      · rw [if_neg h₂]
        exact ⟨alookup_ainsert_self _ _ _, toChunks_flatten content⟩
  · intro name content ts f hf
    rw [create_file_version, hf]
    exact ⟨alookup_ainsert_self _ _ _, toChunks_flatten content⟩

/-- Claim C9 (witness): the invariant at the concrete one-file state, the
shard stored for a.txt, a fresh two-byte upload and a two-byte version
snapshot. -/
theorem chunk_shard_invariant_witness :
    ((∀ b ∈ (toChunks [1, 2, 3]).dropLast, b.length = CHUNK_SIZE) ∧
      (∀ b ∈ toChunks [1, 2, 3], 0 < b.length ∧ b.length ≤ CHUNK_SIZE) ∧
      toChunks [1, 2, 3] = toChunks (toChunks [1, 2, 3]).flatten) ∧
    (alookup (upload_file oneFileState "b.txt" [4, 5] "text" [] 9).2.file_chunks
        "b.txt" = some (toChunks [4, 5]) ∧
      (toChunks [4, 5]).flatten = [4, 5]) ∧
    (alookup (create_file_version oneFileState "a.txt" [6] 13).2.file_chunks
        ("a.txt" ++ "_" ++ toString 13) = some (toChunks [6]) ∧
      (toChunks [6]).flatten = [6]) := by
  have h := chunk_shard_invariant oneFileState reachable_oneFileState
  exact ⟨h.1 "a.txt" (toChunks [1, 2, 3]) (by decide),
    h.2.1 "b.txt" [4, 5] "text" [] 9 rfl,
    h.2.2 "a.txt" [6] 13 oneFile oneFileState_files⟩

/-- Claim C10: in every reachable state storage_usage is at least the sum of
the stored content lengths, so any stored file's content length is at most
storage_usage and the subtraction performed by delete_file on a present name
is exact (no underflow): the new counter plus the removed length equals the
old counter. -/
theorem usage_ge_sum_no_underflow (s : FileStorage) (h : Reachable s) :
    sumSizes s.files ≤ s.storage_usage ∧
    (∀ (name : String) (f : File), alookup s.files name = some f →
      f.content.length ≤ s.storage_usage ∧
      (delete_file s name).2.storage_usage + f.content.length =
        s.storage_usage) := by
  have hinv := reachable_inv h
  refine ⟨hinv.usage_ge, ?_⟩
  intro name f hf
  have h₁ := alookup_size_le_sumSizes s.files name f hf
  have h₂ := hinv.usage_ge
  constructor
  · omega
  · rw [delete_file, hf]
    show s.storage_usage - f.content.length + f.content.length = s.storage_usage
    omega

/-- Claim C10 (witness): the bound and the exact decrement at the concrete
one-file state. -/
theorem usage_ge_sum_no_underflow_witness :
    sumSizes oneFileState.files ≤ oneFileState.storage_usage ∧
    (oneFile.content.length ≤ oneFileState.storage_usage ∧
      (delete_file oneFileState "a.txt").2.storage_usage +
        oneFile.content.length = oneFileState.storage_usage) :=
  ⟨(usage_ge_sum_no_underflow oneFileState reachable_oneFileState).1,
    (usage_ge_sum_no_underflow oneFileState reachable_oneFileState).2 "a.txt"
      oneFile oneFileState_files⟩
